import Mathlib

/-!
Shallow embedding of the edge-language-server core
(`src/server/validator.ts`, `src/server/parser.ts`,
`src/utils/document-cache.ts`, `src/server/server.ts`,
`src/completions/completion.ts`, `src/completion.ts`)
together with proofs of the structural claims about it.
-/

namespace EdgeLS

/-- Diagnostic severity (`DiagnosticSeverity` of vscode-languageserver). -/
inductive Severity where
  | error
  | warning
deriving DecidableEq, Repr

/-- A diagnostic as the validator produces it.  The code anchors ranges via
`document.positionAt(node.startIndex) .. positionAt(node.endIndex)`; since
`positionAt` is a fixed injective function of the document we keep the
defining character offsets as the range. -/
structure Diagnostic where
  severity : Severity
  startIndex : Nat
  endIndex : Nat
  message : String
  source : String
deriving DecidableEq, Repr

/-- A syntax-tree node as the validator and classifier consume it:
tree-sitter `type`, covered source `text`, character span
`startIndex`/`endIndex`, the `hasError` flag, and the ordered children. -/
inductive Node where
  | mk (type : String) (text : String) (startIndex endIndex : Nat)
       (hasError : Bool) (children : List Node)

def Node.type : Node → String
  | .mk t _ _ _ _ _ => t

def Node.text : Node → String
  | .mk _ x _ _ _ _ => x

def Node.startIndex : Node → Nat
  | .mk _ _ s _ _ _ => s

def Node.endIndex : Node → Nat
  | .mk _ _ _ e _ _ => e

def Node.hasError : Node → Bool
  | .mk _ _ _ _ h _ => h

def Node.children : Node → List Node
  | .mk _ _ _ _ _ cs => cs

mutual
/-- The visit order of `EdgeValidator.walkTree`: the node itself, then each
child subtree in order (pre-order traversal). -/
def Node.preorder : Node → List Node
  | .mk t x s e h cs => .mk t x s e h cs :: preorderList cs

def preorderList : List Node → List Node
  | [] => []
  | c :: cs => c.preorder ++ preorderList cs
end

/-! JavaScript string primitives used by the validator, modelled on the
underlying character lists. -/

/-- `pat.leadsWith s` decides whether `pat` is an initial segment of `s`
(used for JS `String.prototype.startsWith`). -/
def leadsWith : List Char → List Char → Bool
  | [], _ => true
  | _ :: _, [] => false
  | a :: as, b :: bs => a == b && leadsWith as bs

/-- JS `s.startsWith(pat)`. -/
def jsStartsWith (s pat : String) : Bool := leadsWith pat.data s.data

/-- JS `s.replace(pat, "")` with a string pattern replaces only the first
occurrence of `pat` (and returns `s` unchanged when `pat` does not occur). -/
def replaceFirstL (pat : List Char) : List Char → List Char
  | [] => []
  | c :: rest =>
    if leadsWith pat (c :: rest) then (c :: rest).drop pat.length
    else c :: replaceFirstL pat rest

/-- JS `s.replace(pat, "")` (first occurrence only). -/
def jsReplaceFirst (s pat : String) : String := ⟨replaceFirstL pat.data s.data⟩

def containsSubL (pat : List Char) : List Char → Bool
  | [] => leadsWith pat []
  | c :: rest => leadsWith pat (c :: rest) || containsSubL pat rest

/-- JS `s.includes(pat)`. -/
def jsIncludes (s pat : String) : Bool := containsSubL pat.data s.data

/-- JS `s.slice(1, -1)`: drop the first and last character. -/
def jsSliceOneNegOne (s : String) : String := ⟨(s.data.drop 1).dropLast⟩

def isAsciiLetter (c : Char) : Bool :=
  (('a' ≤ c) && (c ≤ 'z')) || (('A' ≤ c) && (c ≤ 'Z'))

def isAsciiDigit (c : Char) : Bool := ('0' ≤ c) && (c ≤ '9')

/-- JS `name.match(/^[a-zA-Z][a-zA-Z0-9._-]*$/) !== null` (component names). -/
def matchesDottedName (s : String) : Bool :=
  match s.data with
  | [] => false
  | c :: cs =>
    isAsciiLetter c &&
      cs.all (fun d => isAsciiLetter d || isAsciiDigit d || d == '.' || d == '_' || d == '-')

/-- JS `name.match(/^[a-zA-Z][a-zA-Z0-9_-]*$/) !== null`
(slot / section / block names: no dots). -/
def matchesPlainName (s : String) : Bool :=
  match s.data with
  | [] => false
  | c :: cs =>
    isAsciiLetter c &&
      cs.all (fun d => isAsciiLetter d || isAsciiDigit d || d == '_' || d == '-')

/-! The validator (`EdgeValidator` in `src/server/validator.ts`). -/

/-- Diagnostic pushed with `DiagnosticSeverity.Error`, anchored at `n`. -/
def errDiag (n : Node) (msg : String) : Diagnostic :=
  ⟨Severity.error, n.startIndex, n.endIndex, msg, "edge"⟩

/-- Diagnostic pushed with `DiagnosticSeverity.Warning`, anchored at `n`. -/
def warnDiag (n : Node) (msg : String) : Diagnostic :=
  ⟨Severity.warning, n.startIndex, n.endIndex, msg, "edge"⟩

/-- `EdgeValidator.extractStringFromNode`: the text of the first child of
type `"string"` with its surrounding quotes sliced off, `null` when the node
has no such child. -/
def extractStringFromNode (n : Node) : Option String :=
  match n.children.filter (fun c => c.type = "string") with
  | [] => none
  | s :: _ => some (jsSliceOneNegOne s.text)

/-- `EdgeValidator.validateIfDirective`: the diagnostics it pushes. -/
def validateIfDirective (n : Node) : List Diagnostic :=
  match n.children.find? (fun c => c.type = "condition") with
  | some _ => []
  | none => [errDiag n "@if directive missing condition"]

/-- `EdgeValidator.validateUnlessDirective`: the diagnostics it pushes. -/
def validateUnlessDirective (n : Node) : List Diagnostic :=
  match n.children.find? (fun c => c.type = "condition") with
  | some _ => []
  | none => [errDiag n "@unless directive missing condition"]

/-- `EdgeValidator.validateEachDirective`: the diagnostics it pushes. -/
def validateEachDirective (n : Node) : List Diagnostic :=
  if jsIncludes n.text " in " then []
  else [errDiag n "@each directive missing \"in\" keyword"]

/-- `EdgeValidator.validateComponentDirective`: the diagnostics it pushes.
The JS guard `componentName && !componentName.match(...)` also skips the
empty string (falsy in JS). -/
def validateComponentDirective (n : Node) : List Diagnostic :=
  match extractStringFromNode n with
  | none => []
  | some name =>
    if name = "" then []
    else if matchesDottedName name then []
    else [warnDiag n "Component name should follow naming conventions"]

/-- `EdgeValidator.validateSlotDirective`: the diagnostics it pushes. -/
def validateSlotDirective (n : Node) : List Diagnostic :=
  match extractStringFromNode n with
  | none => []
  | some name =>
    if name = "" then []
    else if matchesPlainName name then []
    else [warnDiag n "Slot name should follow naming conventions"]

/-- `EdgeValidator.validateSectionDirective`: the diagnostics it pushes. -/
def validateSectionDirective (n : Node) : List Diagnostic :=
  match extractStringFromNode n with
  | none => []
  | some name =>
    if name = "" then []
    else if matchesPlainName name then []
    else [warnDiag n "Section name should follow naming conventions"]

/-- `EdgeValidator.validateBlockDirective`: the diagnostics it pushes. -/
def validateBlockDirective (n : Node) : List Diagnostic :=
  match extractStringFromNode n with
  | none => []
  | some name =>
    if name = "" then []
    else if matchesPlainName name then []
    else [warnDiag n "Block name should follow naming conventions"]

/-- `EdgeValidator.validateInterpolation`: the diagnostics it pushes. -/
def validateInterpolation (n : Node) : List Diagnostic :=
  match n.children.find? (fun c => c.type = "expression") with
  | none => [warnDiag n "Empty interpolation"]
  | some e =>
    if e.text.trim.length = 0 then [warnDiag n "Empty interpolation"] else []

/-- `EdgeValidator.validateInclude`: the diagnostics it pushes (the JS guard
`includePath && ...` also skips the empty string). -/
def validateInclude (n : Node) : List Diagnostic :=
  match extractStringFromNode n with
  | none => []
  | some p =>
    if p = "" then []
    else if jsIncludes p ".." then
      [warnDiag n "Avoid using relative paths in includes"]
    else []

/-- A frame of the validator's block stack: `{ type, node }`. -/
structure Frame where
  type : String
  node : Node

/-- Validator state threaded through the traversal: the diagnostics pushed so
far and the block stack.  The head of `stack` is the top of the JS array
(`blockStack.push` is `cons`, index `length - 1` is the head). -/
structure VState where
  diags : List Diagnostic
  stack : List Frame

/-- `node.type.replace("end", "").replace("_directive", "")`: the block type
encoded in a typed closer's node type. -/
def closerType (t : String) : String :=
  jsReplaceFirst (jsReplaceFirst t "end") "_directive"

/-- Downward search of the typed-closer loop: remove the frame nearest to the
top of the stack whose type matches, `none` when no frame matches
(`for i = length-1 .. 0; splice(i, 1)` on the JS array, whose top is our
list head). -/
def removeNearest (t : String) : List Frame → Option (List Frame)
  | [] => none
  | f :: fs =>
    if f.type = t then some fs
    else (removeNearest t fs).map (fun fs2 => f :: fs2)

/-- Rule 1 of the visit callback: `if (node.hasError) push("Syntax error")`. -/
def errorFlagStep (n : Node) (st : VState) : VState :=
  if n.hasError then { st with diags := st.diags ++ [errDiag n "Syntax error"] }
  else st

/-- Rule 2 of the visit callback: the `switch (node.type)` over the seven
block-opening directives, pushing a frame and running the shape check. -/
def openerStep (n : Node) (st : VState) : VState :=
  if n.type = "if_directive" then
    ⟨st.diags ++ validateIfDirective n, ⟨"if", n⟩ :: st.stack⟩
  else if n.type = "unless_directive" then
    ⟨st.diags ++ validateUnlessDirective n, ⟨"unless", n⟩ :: st.stack⟩
  else if n.type = "each_directive" then
    ⟨st.diags ++ validateEachDirective n, ⟨"each", n⟩ :: st.stack⟩
  else if n.type = "component_directive" then
    ⟨st.diags ++ validateComponentDirective n, ⟨"component", n⟩ :: st.stack⟩
  else if n.type = "slot_directive" then
    ⟨st.diags ++ validateSlotDirective n, ⟨"slot", n⟩ :: st.stack⟩
  else if n.type = "section_directive" then
    ⟨st.diags ++ validateSectionDirective n, ⟨"section", n⟩ :: st.stack⟩
  else if n.type = "block_directive" then
    ⟨st.diags ++ validateBlockDirective n, ⟨"block", n⟩ :: st.stack⟩
  else st

/-- Rule 3a of the visit callback: typed closers
(`node.type.startsWith("end") && node.type !== "end_directive"`). -/
def typedCloserStep (n : Node) (st : VState) : VState :=
  if jsStartsWith n.type "end" = true ∧ n.type ≠ "end_directive" then
    match removeNearest (closerType n.type) st.stack with
    | some fs => { st with stack := fs }
    | none =>
      { st with
        diags := st.diags ++
          [errDiag n ("@end" ++ closerType n.type ++ " without matching @" ++
            closerType n.type ++ " directive")] }
  else st

/-- Rule 3b of the visit callback: the generic `end_directive` closer. -/
def genericCloserStep (n : Node) (st : VState) : VState :=
  if n.type = "end_directive" then
    match st.stack with
    | [] =>
      { st with diags := st.diags ++
          [errDiag n "@end without matching block directive"] }
    | _ :: rest => { st with stack := rest }
  else st

/-- Rule 4 of the visit callback: interpolations. -/
def interpolationStep (n : Node) (st : VState) : VState :=
  if n.type = "interpolation" ∨ n.type = "safe_interpolation" then
    { st with diags := st.diags ++ validateInterpolation n }
  else st

/-- Rule 5 of the visit callback: includes. -/
def includeStep (n : Node) (st : VState) : VState :=
  if n.type = "include_directive" ∨ n.type = "include_if_directive" then
    { st with diags := st.diags ++ validateInclude n }
  else st

/-- The whole per-node callback of `EdgeValidator.validate`, rules applied in
source order. -/
def visitNode (st : VState) (n : Node) : VState :=
  includeStep n (interpolationStep n (genericCloserStep n
    (typedCloserStep n (openerStep n (errorFlagStep n st)))))

/-- The trailing `@<type> directive missing @end<type>` error for a frame
still on the stack after the traversal. -/
def missingEndDiag (f : Frame) : Diagnostic :=
  errDiag f.node ("@" ++ f.type ++ " directive missing @end" ++ f.type)

/-- `EdgeValidator.validate` on the root node of a tree: fold the callback
over the pre-order traversal, then drain the surviving frames
(`blockStack.forEach` runs bottom-of-array first, i.e. our list reversed). -/
def validate (root : Node) : List Diagnostic :=
  let final := root.preorder.foldl visitNode ⟨[], []⟩
  final.diags ++ (final.stack.reverse.map missingEndDiag)

/-- The diagnostics rule 1 alone contributes for a node (the syntax-error
check that runs before the block rules). -/
def baseDiags (n : Node) : List Diagnostic :=
  if n.hasError then [errDiag n "Syntax error"] else []

/-- The diagnostics the visit callback emits for a single node, as a function
of the block stack at the moment the node is visited. -/
def nodeEmit (n : Node) (fs : List Frame) : List Diagnostic :=
  (visitNode ⟨[], fs⟩ n).diags

/-- The block stack after the visit callback processes one node. -/
def nodeStack (n : Node) (fs : List Frame) : List Frame :=
  (visitNode ⟨[], fs⟩ n).stack

/-- Concatenation of the per-node diagnostics of a node sequence, each node
contributing at its own visit position (document order). -/
def perNodeDiags : List Node → List Frame → List Diagnostic
  | [], _ => []
  | n :: ns, fs => nodeEmit n fs ++ perNodeDiags ns (nodeStack n fs)

/-- The block stack left after a node sequence has been traversed. -/
def stackAfter : List Node → List Frame → List Frame
  | [], fs => fs
  | n :: ns, fs => stackAfter ns (nodeStack n fs)

/-- A state transformer that only appends to the diagnostics accumulator and
evolves the stack independently of the accumulated diagnostics. -/
def DiagAppendStep (g : VState → VState) : Prop :=
  ∀ ds fs, g ⟨ds, fs⟩ = ⟨ds ++ (g ⟨[], fs⟩).diags, (g ⟨[], fs⟩).stack⟩

/-- The generic closer node of a document that consists of a bare `@end`. -/
def bareCloserNode : Node := Node.mk "end_directive" "@end" 0 4 false []

/-- Root of the tree for a document consisting only of a bare `@end`. -/
def bareCloserRoot : Node := Node.mk "template" "@end" 0 4 false [bareCloserNode]

/-! The document cache (`DocumentCache` in `src/utils/document-cache.ts`).
Parsed trees are opaque objects compared by reference; we model a reference
as the value of a parse counter (`nextRef`) that every `parser.parse` call
increments, so distinct parse calls always return distinct references. -/

/-- One cache entry: `{ version, text, tree, timestamp }`. -/
structure CachedDocument where
  version : Nat
  text : String
  tree : Nat
  timestamp : Nat
deriving DecidableEq, Repr

/-- State of a `DocumentCache` together with the parse counter of the parser
it is used with.  `entries` is kept in JS `Map` insertion order. -/
structure CacheState where
  entries : List (String × CachedDocument)
  maxSize : Nat
  ttl : Nat
  nextRef : Nat
deriving DecidableEq, Repr

/-- JS `Map.prototype.get`. -/
def mapGet (m : List (String × CachedDocument)) (k : String) :
    Option CachedDocument :=
  (m.find? (fun e => e.1 = k)).map (fun e => e.2)

/-- JS `Map.prototype.set`: update in place when the key is present, append a
new entry otherwise. -/
def mapSet (m : List (String × CachedDocument)) (k : String)
    (v : CachedDocument) : List (String × CachedDocument) :=
  if m.any (fun e => e.1 = k) then
    m.map (fun e => if e.1 = k then (k, v) else e)
  else m ++ [(k, v)]

/-- JS `Map.prototype.delete`. -/
def mapDelete (m : List (String × CachedDocument)) (k : String) :
    List (String × CachedDocument) :=
  m.filter (fun e => ¬e.1 = k)

/-- The comparator `(a, b) => a[1].timestamp - b[1].timestamp` passed to the
sort in `DocumentCache.cleanup` (ascending by last-write timestamp). -/
def byTimestamp (a b : String × CachedDocument) : Bool :=
  a.2.timestamp ≤ b.2.timestamp

/-- `DocumentCache.cleanup`: when the entry count exceeds `maxSize`, sort the
entries by last-write timestamp (JS `Array.prototype.sort` is stable, which
`List.mergeSort` models) and delete the keys of the oldest
`size - maxSize` entries. -/
def cleanup (c : CacheState) : CacheState :=
  if c.entries.length ≤ c.maxSize then c
  else
    let sorted := c.entries.mergeSort byTimestamp
    let excess := c.entries.length - c.maxSize
    { c with
      entries := (sorted.take excess).foldl (fun m e => mapDelete m e.1) c.entries }

/-- `parser.parse(text)` followed by `cache.set` and `cleanup`: the common
tail of every miss path of `DocumentCache.getTree`. -/
def parseAndStore (c : CacheState) (uri : String) (version : Nat)
    (text : String) (now : Nat) : Nat × CacheState :=
  (c.nextRef, cleanup
    { c with
      nextRef := c.nextRef + 1,
      entries := mapSet c.entries uri ⟨version, text, c.nextRef, now⟩ })

/-- `DocumentCache.getTree document parser` at time `now`; the `document`
argument contributes `uri`, `version` and `getText()`. -/
def getTree (c : CacheState) (uri : String) (version : Nat) (text : String)
    (now : Nat) : Nat × CacheState :=
  match mapGet c.entries uri with
  | some cached =>
    if cached.version = version ∧ cached.text = text then
      if now - cached.timestamp < c.ttl then (cached.tree, c)
      else
        parseAndStore { c with entries := mapDelete c.entries uri }
          uri version text now
    else parseAndStore c uri version text now
  | none => parseAndStore c uri version text now

/-- `DocumentCache.invalidate`. -/
def invalidate (c : CacheState) (uri : String) : CacheState :=
  { c with entries := mapDelete c.entries uri }

/-- `DocumentCache.invalidateAll`. -/
def invalidateAll (c : CacheState) : CacheState := { c with entries := [] }

/-- `DocumentCache.getSize`. -/
def getSize (c : CacheState) : Nat := c.entries.length

/-- `DocumentCache.setTTL`. -/
def setTTL (c : CacheState) (t : Nat) : CacheState := { c with ttl := t }

/-- `DocumentCache.setMaxSize`: update the bound, then `cleanup`. -/
def setMaxSize (c : CacheState) (m : Nat) : CacheState :=
  cleanup { c with maxSize := m }

/-- Well-formedness tying cached tree references to the parse counter: every
cached tree was produced by an earlier parse call. -/
def RefsBelow (c : CacheState) : Prop :=
  ∀ e ∈ c.entries, e.2.tree < c.nextRef

/-- Iterated document-open events: each input `(uri, version, text, time)` is
fed to `getTree` in order. -/
def insertAll (c : CacheState) :
    List (String × Nat × String × Nat) → CacheState
  | [] => c
  | (uri, version, text, now) :: rest =>
    insertAll (getTree c uri version text now).2 rest

/-! The analyze path (`EdgeLanguageServer.validateEdgeDocument` in
`src/server/server.ts`). -/

/-- An editor-protocol position (line, character). -/
structure Position where
  line : Nat
  character : Nat
deriving DecidableEq, Repr

/-- A published diagnostic: ranges are positions, produced from the
validator's character offsets via `document.positionAt`. -/
structure PubDiagnostic where
  severity : Severity
  rangeStart : Position
  rangeEnd : Position
  message : String
  source : String
deriving DecidableEq, Repr

/-- Convert a validator diagnostic with `document.positionAt` (`posAt`). -/
def toPub (posAt : Nat → Position) (d : Diagnostic) : PubDiagnostic :=
  ⟨d.severity, posAt d.startIndex, posAt d.endIndex, d.message, d.source⟩

/-- `Number.MAX_VALUE` as the exact integer `(2^53 - 1) * 2^971`. -/
def jsNumberMaxValue : Nat := (2 ^ 53 - 1) * 2 ^ 971

/-- `EdgeLanguageServer.validateEdgeDocument`: the diagnostics it publishes.
A parse call that throws (`ParseFailure`) is the `Except.error` case,
carrying `error.message`; the `catch` block turns it into the single
document-wide `Parse error` diagnostic. -/
def validateEdgeDocument (posAt : Nat → Position)
    (parseResult : Except String Node) : List PubDiagnostic :=
  match parseResult with
  | .ok root => (validate root).map (toPub posAt)
  | .error msg =>
    [⟨Severity.error, ⟨0, 0⟩, ⟨0, jsNumberMaxValue⟩, "Parse error: " ++ msg,
      "edge"⟩]

/-! The two cursor classifiers for interpolation
(`EdgeCompletionProvider.isInsideInterpolation` in
`src/completions/completion.ts` — textual — and in `src/completion.ts` —
tree-based). -/

/-- The scan loop of the textual classifier: walk the text up to the cursor
offset, switching the flag on every full `\x7b\x7b` or `\x7d\x7d` marker. -/
def interpScan (text : List Char) (offset i : Nat) (inI : Bool) : Bool :=
  if i < offset then
    if i + 1 < text.length then
      if text[i]? = some '{' ∧ text[i + 1]? = some '{' then
        interpScan text offset (i + 2) true
      else if text[i]? = some '}' ∧ text[i + 1]? = some '}' then
        interpScan text offset (i + 2) false
      else interpScan text offset (i + 1) inI
    else interpScan text offset (i + 1) inI
  else inI
termination_by offset - i

/-- The textual classifier: `offset` is `document.offsetAt(position)`. -/
def isInsideInterpolationFallback (text : String) (offset : Nat) : Bool :=
  interpScan text.data offset 0 false

/-- The tree-based classifier: walk the ancestor chain (node first, root
last) looking for a `mustache` node. -/
def isInsideInterpolationTree : List Node → Bool
  | [] => false
  | n :: rest =>
    if n.type = "mustache" then true else isInsideInterpolationTree rest

/-! The parser adapter's position lookup (`EdgeParser.getNodeAtPosition` in
`src/server/parser.ts`). -/

/-- A tree-sitter point `{row, column}`. -/
structure Point where
  row : Nat
  column : Nat
deriving DecidableEq, Repr

/-- Lexicographic order on points. -/
def pointLe (a b : Point) : Bool :=
  a.row < b.row || (a.row = b.row && a.column ≤ b.column)

/-- A node as the position lookup consumes it: a point span and children. -/
inductive PNode where
  | mk (startPoint endPoint : Point) (children : List PNode)

def PNode.startPoint : PNode → Point
  | .mk s _ _ => s

def PNode.endPoint : PNode → Point
  | .mk _ e _ => e

def PNode.children : PNode → List PNode
  | .mk _ _ cs => cs

/-- Span membership: `startPoint ≤ p < endPoint`. -/
def containsB (n : PNode) (p : Point) : Bool :=
  pointLe n.startPoint p && !pointLe n.endPoint p

mutual
/-- Modelled from the spec: `descendantForPosition` of the external
tree-sitter runtime, which `src/server/parser.ts` delegates to — per §4.1
it "returns the most specific (deepest) node whose span contains the given
position, or null if the position is out of document bounds".  Recursive
descent into the first child whose span contains the position. -/
def descendantForPosition : PNode → Point → Option PNode
  | .mk s e cs, p =>
    if containsB (.mk s e cs) p then
      match descendInChildren cs p with
      | some m => some m
      | none => some (.mk s e cs)
    else none

def descendInChildren : List PNode → Point → Option PNode
  | [], _ => none
  | c :: cs, p =>
    if containsB c p then descendantForPosition c p
    else descendInChildren cs p
end

/-- `EdgeParser.getNodeAtPosition`: build `{row: line, column: character}`
and look it up from the root of the tree. -/
def getNodeAtPosition (root : PNode) (line character : Nat) : Option PNode :=
  descendantForPosition root ⟨line, character⟩

/-- `c`'s span lies within `n`'s span. -/
def spanInside (c n : PNode) : Bool :=
  pointLe n.startPoint c.startPoint && pointLe c.endPoint n.endPoint

/-- Non-overlapping spans. -/
def disjointSpans (a b : PNode) : Bool :=
  pointLe a.endPoint b.startPoint || pointLe b.endPoint a.startPoint

def childrenDisjoint : List PNode → Bool
  | [] => true
  | c :: cs => cs.all (fun d => disjointSpans c d) && childrenDisjoint cs

mutual
/-- Well-formed syntax tree: children's spans nest inside the parent and
siblings do not overlap. -/
def wellNested : PNode → Bool
  | .mk s e cs =>
    cs.all (fun c => spanInside c (.mk s e cs)) && childrenDisjoint cs &&
      childrenWellNested cs

def childrenWellNested : List PNode → Bool
  | [] => true
  | c :: cs => wellNested c && childrenWellNested cs
end

mutual
/-- All nodes of a subtree, in pre-order. -/
def PNode.allNodes : PNode → List PNode
  | .mk s e cs => .mk s e cs :: allNodesList cs

def allNodesList : List PNode → List PNode
  | [] => []
  | c :: cs => c.allNodes ++ allNodesList cs
end

end EdgeLS

namespace EdgeLS

/-! Helper lemmas about the validator's stack operations. -/

theorem removeNearest_split (t : String) (pre : List Frame) (f : Frame)
    (suf : List Frame) (hf : f.type = t) (hpre : ∀ g ∈ pre, g.type ≠ t) :
    removeNearest t (pre ++ f :: suf) = some (pre ++ suf) := by
  induction pre with
  | nil => simp [removeNearest, hf]
  | cons g gs ih =>
    have hg : g.type ≠ t := hpre g (by simp)
    have ih2 := ih (fun x hx => hpre x (by simp [hx]))
    simp [removeNearest, hg, ih2]

theorem removeNearest_none (t : String) (fs : List Frame)
    (h : ∀ f ∈ fs, f.type ≠ t) : removeNearest t fs = none := by
  induction fs with
  | nil => rfl
  | cons f fs ih =>
    have hf : f.type ≠ t := h f (by simp)
    have ih2 := ih (fun x hx => h x (by simp [hx]))
    simp [removeNearest, hf, ih2]

/-! Behaviour of the individual callback rules under type hypotheses. -/

theorem errorFlagStep_eq (n : Node) (st : VState) :
    errorFlagStep n st = ⟨st.diags ++ baseDiags n, st.stack⟩ := by
  unfold errorFlagStep baseDiags
  cases n.hasError <;> simp

theorem openerStep_skip (n : Node) (st : VState)
    (e1 : n.type ≠ "if_directive") (e2 : n.type ≠ "unless_directive")
    (e3 : n.type ≠ "each_directive") (e4 : n.type ≠ "component_directive")
    (e5 : n.type ≠ "slot_directive") (e6 : n.type ≠ "section_directive")
    (e7 : n.type ≠ "block_directive") : openerStep n st = st := by
  unfold openerStep
  rw [if_neg e1, if_neg e2, if_neg e3, if_neg e4, if_neg e5, if_neg e6,
    if_neg e7]

theorem typedCloserStep_closer (n : Node) (st : VState)
    (h1 : jsStartsWith n.type "end" = true) (h2 : n.type ≠ "end_directive") :
    typedCloserStep n st =
      match removeNearest (closerType n.type) st.stack with
      | some fs => { st with stack := fs }
      | none =>
        { st with
          diags := st.diags ++
            [errDiag n ("@end" ++ closerType n.type ++ " without matching @" ++
              closerType n.type ++ " directive")] } := by
  unfold typedCloserStep
  rw [if_pos (And.intro h1 h2)]

theorem typedCloserStep_skip_generic (n : Node) (st : VState)
    (h : n.type = "end_directive") : typedCloserStep n st = st := by
  unfold typedCloserStep
  rw [if_neg]
  rintro ⟨-, hx⟩
  exact hx h

theorem genericCloserStep_skip (n : Node) (st : VState)
    (h : n.type ≠ "end_directive") : genericCloserStep n st = st := by
  unfold genericCloserStep
  rw [if_neg h]

theorem genericCloserStep_eq (n : Node) (st : VState)
    (h : n.type = "end_directive") :
    genericCloserStep n st =
      match st.stack with
      | [] =>
        { st with diags := st.diags ++
            [errDiag n "@end without matching block directive"] }
      | _ :: rest => { st with stack := rest } := by
  unfold genericCloserStep
  rw [if_pos h]

theorem interpolationStep_skip (n : Node) (st : VState)
    (e8 : n.type ≠ "interpolation") (e9 : n.type ≠ "safe_interpolation") :
    interpolationStep n st = st := by
  unfold interpolationStep
  rw [if_neg]
  rintro (hx | hx)
  · exact e8 hx
  · exact e9 hx

theorem includeStep_skip (n : Node) (st : VState)
    (e10 : n.type ≠ "include_directive") (e11 : n.type ≠ "include_if_directive") :
    includeStep n st = st := by
  unfold includeStep
  rw [if_neg]
  rintro (hx | hx)
  · exact e10 hx
  · exact e11 hx

theorem ne_opener_of_typed_closer {t : String}
    (h : jsStartsWith t "end" = true) :
    t ≠ "if_directive" ∧ t ≠ "unless_directive" ∧ t ≠ "each_directive" ∧
    t ≠ "component_directive" ∧ t ≠ "slot_directive" ∧
    t ≠ "section_directive" ∧ t ≠ "block_directive" ∧
    t ≠ "interpolation" ∧ t ≠ "safe_interpolation" ∧
    t ≠ "include_directive" ∧ t ≠ "include_if_directive" := by
  refine ⟨?_, ?_, ?_, ?_, ?_, ?_, ?_, ?_, ?_, ?_, ?_⟩ <;>
    (intro he; rw [he] at h; exact absurd h (by decide))

/-- Behaviour of the whole visit callback at a typed closer. -/
theorem visitNode_typed_closer (n : Node) (ds : List Diagnostic)
    (fs : List Frame) (h1 : jsStartsWith n.type "end" = true)
    (h2 : n.type ≠ "end_directive") :
    visitNode ⟨ds, fs⟩ n =
      match removeNearest (closerType n.type) fs with
      | some fs2 => ⟨ds ++ baseDiags n, fs2⟩
      | none =>
        ⟨ds ++ baseDiags n ++
            [errDiag n ("@end" ++ closerType n.type ++ " without matching @" ++
              closerType n.type ++ " directive")], fs⟩ := by
  obtain ⟨e1, e2, e3, e4, e5, e6, e7, e8, e9, e10, e11⟩ :=
    ne_opener_of_typed_closer h1
  unfold visitNode
  rw [errorFlagStep_eq, openerStep_skip _ _ e1 e2 e3 e4 e5 e6 e7,
    typedCloserStep_closer _ _ h1 h2]
  cases hR : removeNearest (closerType n.type) fs <;>
    simp only [hR] <;>
    rw [genericCloserStep_skip _ _ h2, interpolationStep_skip _ _ e8 e9,
      includeStep_skip _ _ e10 e11]

/-- Behaviour of the whole visit callback at the generic closer. -/
theorem visitNode_generic_closer (n : Node) (ds : List Diagnostic)
    (fs : List Frame) (h : n.type = "end_directive") :
    visitNode ⟨ds, fs⟩ n =
      match fs with
      | [] =>
        ⟨ds ++ baseDiags n ++ [errDiag n "@end without matching block directive"],
          []⟩
      | _ :: rest => ⟨ds ++ baseDiags n, rest⟩ := by
  unfold visitNode
  rw [errorFlagStep_eq,
    openerStep_skip _ _ (by rw [h]; decide) (by rw [h]; decide)
      (by rw [h]; decide) (by rw [h]; decide) (by rw [h]; decide)
      (by rw [h]; decide) (by rw [h]; decide),
    typedCloserStep_skip_generic _ _ h, genericCloserStep_eq _ _ h]
  cases fs <;>
    simp only [] <;>
    rw [interpolationStep_skip _ _ (by rw [h]; decide) (by rw [h]; decide),
      includeStep_skip _ _ (by rw [h]; decide) (by rw [h]; decide)]

/-- C1: at a typed closer the validator removes the topmost frame of the
matching type, leaving all frames above it on the stack; when no frame of
that type exists anywhere on the stack it appends exactly one Error
diagnostic at the closer's range and leaves the stack unchanged. -/
theorem c1_typed_closer_matching (n : Node) (ds : List Diagnostic)
    (fs : List Frame) (h1 : jsStartsWith n.type "end" = true)
    (h2 : n.type ≠ "end_directive") :
    (∀ pre f suf, fs = pre ++ f :: suf → f.type = closerType n.type →
        (∀ g ∈ pre, g.type ≠ closerType n.type) →
        visitNode ⟨ds, fs⟩ n = ⟨ds ++ baseDiags n, pre ++ suf⟩)
    ∧ ((∀ f ∈ fs, f.type ≠ closerType n.type) →
        visitNode ⟨ds, fs⟩ n =
          ⟨ds ++ baseDiags n ++
              [errDiag n ("@end" ++ closerType n.type ++ " without matching @" ++
                closerType n.type ++ " directive")], fs⟩) := by
  constructor
  · rintro pre f suf rfl hf hpre
    rw [visitNode_typed_closer n ds _ h1 h2,
      removeNearest_split _ _ _ _ hf hpre]
  · intro hnone
    rw [visitNode_typed_closer n ds fs h1 h2, removeNearest_none _ _ hnone]

theorem c1_typed_closer_matching_witness :
    visitNode
        ⟨[], [⟨"each", Node.mk "each_directive" "@each(x in xs)" 7 21 false []⟩,
          ⟨"if", Node.mk "if_directive" "@if(a)" 0 6 false []⟩,
          ⟨"if", Node.mk "if_directive" "@if(b)" 3 9 false []⟩]⟩
        (Node.mk "endif_directive" "@endif" 22 28 false []) =
      ⟨[], [⟨"each", Node.mk "each_directive" "@each(x in xs)" 7 21 false []⟩,
        ⟨"if", Node.mk "if_directive" "@if(b)" 3 9 false []⟩]⟩ :=
  (c1_typed_closer_matching
      (Node.mk "endif_directive" "@endif" 22 28 false []) []
      [⟨"each", Node.mk "each_directive" "@each(x in xs)" 7 21 false []⟩,
        ⟨"if", Node.mk "if_directive" "@if(a)" 0 6 false []⟩,
        ⟨"if", Node.mk "if_directive" "@if(b)" 3 9 false []⟩]
      (by decide) (by decide)).1
    [⟨"each", Node.mk "each_directive" "@each(x in xs)" 7 21 false []⟩]
    ⟨"if", Node.mk "if_directive" "@if(a)" 0 6 false []⟩
    [⟨"if", Node.mk "if_directive" "@if(b)" 3 9 false []⟩]
    rfl (by decide) (by decide)

/-- C2: a generic closer pops the top frame unconditionally when the stack is
non-empty and emits no diagnostic; on an empty stack it appends exactly one
Error diagnostic at the closer's range; and the tree of a document that is a
single bare `@end` yields exactly that one Error diagnostic. -/
theorem c2_generic_closer (n : Node) (ds : List Diagnostic) (fs : List Frame)
    (h : n.type = "end_directive") :
    (fs = [] → visitNode ⟨ds, fs⟩ n =
        ⟨ds ++ baseDiags n ++ [errDiag n "@end without matching block directive"],
          []⟩)
    ∧ (∀ f rest, fs = f :: rest → visitNode ⟨ds, fs⟩ n = ⟨ds ++ baseDiags n, rest⟩)
    ∧ validate bareCloserRoot =
        [errDiag bareCloserNode "@end without matching block directive"] := by
  refine ⟨?_, ?_, by decide⟩
  · rintro rfl; rw [visitNode_generic_closer n ds [] h]
  · rintro f rest rfl; rw [visitNode_generic_closer n ds (f :: rest) h]

theorem c2_generic_closer_witness :
    visitNode ⟨[], []⟩ (Node.mk "end_directive" "@end" 0 4 false []) =
      ⟨[errDiag (Node.mk "end_directive" "@end" 0 4 false [])
          "@end without matching block directive"], []⟩ :=
  (c2_generic_closer (Node.mk "end_directive" "@end" 0 4 false []) [] []
      (by decide)).1 rfl

/-! The visit callback only appends diagnostics: each rule satisfies
`DiagAppendStep`, and `DiagAppendStep` is closed under composition. -/

theorem diagAppend_comp {g h : VState → VState} (hg : DiagAppendStep g)
    (hh : DiagAppendStep h) : DiagAppendStep (fun st => h (g st)) := by
  intro ds fs
  show h (g ⟨ds, fs⟩) = ⟨ds ++ (h (g ⟨[], fs⟩)).diags, (h (g ⟨[], fs⟩)).stack⟩
  rw [hg ds fs, hg [] fs]
  simp only [List.nil_append]
  rw [hh (ds ++ (g ⟨[], fs⟩).diags) (g ⟨[], fs⟩).stack,
    hh (g ⟨[], fs⟩).diags (g ⟨[], fs⟩).stack]
  simp [List.append_assoc]

theorem diagAppend_errorFlagStep (n : Node) :
    DiagAppendStep (errorFlagStep n) := by
  intro ds fs
  rw [errorFlagStep_eq, errorFlagStep_eq]
  simp

theorem diagAppend_openerStep (n : Node) : DiagAppendStep (openerStep n) := by
  intro ds fs
  unfold openerStep
  repeat' split
  all_goals simp

theorem diagAppend_typedCloserStep (n : Node) :
    DiagAppendStep (typedCloserStep n) := by
  intro ds fs
  unfold typedCloserStep
  by_cases hc : jsStartsWith n.type "end" = true ∧ n.type ≠ "end_directive"
  · rw [if_pos hc, if_pos hc]
    cases hR : removeNearest (closerType n.type) fs <;> simp [hR]
  · rw [if_neg hc, if_neg hc]
    simp

theorem diagAppend_genericCloserStep (n : Node) :
    DiagAppendStep (genericCloserStep n) := by
  intro ds fs
  unfold genericCloserStep
  by_cases hc : n.type = "end_directive"
  · rw [if_pos hc, if_pos hc]
    cases fs <;> simp
  · rw [if_neg hc, if_neg hc]
    simp

theorem diagAppend_interpolationStep (n : Node) :
    DiagAppendStep (interpolationStep n) := by
  intro ds fs
  unfold interpolationStep
  by_cases hc : n.type = "interpolation" ∨ n.type = "safe_interpolation"
  · rw [if_pos hc, if_pos hc]
    simp
  · rw [if_neg hc, if_neg hc]
    simp

theorem diagAppend_includeStep (n : Node) : DiagAppendStep (includeStep n) := by
  intro ds fs
  unfold includeStep
  by_cases hc : n.type = "include_directive" ∨ n.type = "include_if_directive"
  · rw [if_pos hc, if_pos hc]
    simp
  · rw [if_neg hc, if_neg hc]
    simp

theorem diagAppend_visitNode (n : Node) :
    DiagAppendStep (fun st => visitNode st n) :=
  diagAppend_comp
    (diagAppend_comp
      (diagAppend_comp
        (diagAppend_comp
          (diagAppend_comp (diagAppend_errorFlagStep n)
            (diagAppend_openerStep n))
          (diagAppend_typedCloserStep n))
        (diagAppend_genericCloserStep n))
      (diagAppend_interpolationStep n))
    (diagAppend_includeStep n)

theorem visitNode_split (n : Node) (ds : List Diagnostic) (fs : List Frame) :
    visitNode ⟨ds, fs⟩ n = ⟨ds ++ nodeEmit n fs, nodeStack n fs⟩ :=
  diagAppend_visitNode n ds fs

theorem foldl_visitNode (ns : List Node) (ds : List Diagnostic)
    (fs : List Frame) :
    ns.foldl visitNode ⟨ds, fs⟩ = ⟨ds ++ perNodeDiags ns fs, stackAfter ns fs⟩ := by
  induction ns generalizing ds fs with
  | nil => simp [perNodeDiags, stackAfter]
  | cons n ns ih =>
    simp only [List.foldl_cons, perNodeDiags, stackAfter]
    rw [visitNode_split, ih]
    simp [List.append_assoc]

/-- C3: the diagnostic list of `validate` is the concatenation of the
per-node diagnostics in pre-order visit order, followed by exactly one
missing-end Error per frame still on the block stack, each anchored at its
frame's opening node and emitted in the order the frames were pushed
(outermost first — the reverse of the top-first stack list). -/
theorem c3_diagnostic_ordering (root : Node) :
    validate root =
      perNodeDiags root.preorder [] ++
        (stackAfter root.preorder []).reverse.map missingEndDiag := by
  unfold validate
  rw [foldl_visitNode]
  simp

/-- C10: a named-entity or include-style directive node without any child of
type `"string"` yields `null` from the string-extraction helper, and every
name-convention and relative-path check is skipped rather than treated as a
violation. -/
theorem c10_no_string_child_skips_checks (n : Node)
    (h : ∀ c ∈ n.children, c.type ≠ "string") :
    extractStringFromNode n = none ∧ validateComponentDirective n = [] ∧
    validateSlotDirective n = [] ∧ validateSectionDirective n = [] ∧
    validateBlockDirective n = [] ∧ validateInclude n = [] := by
  have hx : extractStringFromNode n = none := by
    unfold extractStringFromNode
    cases hf : n.children.filter (fun c => decide (c.type = "string")) with
    | nil => rfl
    | cons c cs =>
      exfalso
      have hc : c ∈ n.children.filter (fun c => decide (c.type = "string")) := by
        rw [hf]; exact List.mem_cons_self c cs
      have := List.mem_filter.mp hc
      exact h c this.1 (by simpa using this.2)
  refine ⟨hx, ?_, ?_, ?_, ?_, ?_⟩ <;>
    simp [validateComponentDirective, validateSlotDirective,
      validateSectionDirective, validateBlockDirective, validateInclude, hx]

/-! Helper lemmas about the JS `Map` model and `cleanup`. -/

theorem mapGet_mem {m : List (String × CachedDocument)} {k : String}
    {v : CachedDocument} (h : mapGet m k = some v) : (k, v) ∈ m := by
  unfold mapGet at h
  obtain ⟨e, hf, hv⟩ := Option.map_eq_some'.mp h
  have hm := List.mem_of_find?_eq_some hf
  have hk : e.1 = k := by simpa using List.find?_some hf
  obtain ⟨a, b⟩ := e
  simp only at hk hv
  rw [hk, hv] at hm
  exact hm

theorem mapGet_eq_none_of_not_mem {m : List (String × CachedDocument)}
    {k : String} (h : k ∉ m.map Prod.fst) : mapGet m k = none := by
  unfold mapGet
  have hall : ∀ e ∈ m, ¬((fun e => decide (e.1 = k)) e = true) := by
    intro e he hd
    have he1 : e.1 = k := of_decide_eq_true hd
    exact h (he1 ▸ List.mem_map_of_mem Prod.fst he)
  rw [List.find?_eq_none.mpr hall]
  rfl

theorem mapGet_mapDelete_self (m : List (String × CachedDocument))
    (k : String) : mapGet (mapDelete m k) k = none := by
  apply mapGet_eq_none_of_not_mem
  intro hk
  obtain ⟨e, he, hek⟩ := List.mem_map.mp hk
  have := List.of_mem_filter he
  simp only [decide_not, Bool.not_eq_true'] at this
  rw [hek] at this
  simp at this

theorem mem_mapDelete {e : String × CachedDocument}
    {m : List (String × CachedDocument)} {k : String}
    (h : e ∈ mapDelete m k) : e ∈ m :=
  List.mem_of_mem_filter h

theorem mapSet_of_not_mem {m : List (String × CachedDocument)} {k : String}
    (v : CachedDocument) (h : k ∉ m.map Prod.fst) :
    mapSet m k v = m ++ [(k, v)] := by
  unfold mapSet
  rw [if_neg]
  intro ha
  obtain ⟨e, he, hd⟩ := List.any_eq_true.mp ha
  have he1 : e.1 = k := of_decide_eq_true hd
  exact h (he1 ▸ List.mem_map_of_mem Prod.fst he)

theorem mapGet_cons_ne {e : String × CachedDocument}
    {es : List (String × CachedDocument)} {k : String} (he : ¬e.1 = k) :
    mapGet (e :: es) k = mapGet es k := by
  unfold mapGet
  rw [List.find?_cons_of_neg]
  simpa using he

theorem mapGet_cons_eq {e : String × CachedDocument}
    {es : List (String × CachedDocument)} {k : String} (he : e.1 = k) :
    mapGet (e :: es) k = some e.2 := by
  unfold mapGet
  rw [List.find?_cons_of_pos]
  · rfl
  · simpa using he

theorem mapGet_mapSet_self (m : List (String × CachedDocument)) (k : String)
    (v : CachedDocument) : mapGet (mapSet m k v) k = some v := by
  induction m with
  | nil =>
    rw [mapSet_of_not_mem v (by simp)]
    simp [mapGet]
  | cons e es ih =>
    unfold mapSet at ih ⊢
    by_cases he : e.1 = k
    · rw [if_pos (List.any_eq_true.mpr
        ⟨e, List.mem_cons_self e es, decide_eq_true he⟩)]
      simp only [List.map_cons, if_pos he]
      rw [mapGet_cons_eq rfl]
    · by_cases ha2 : es.any (fun e => decide (e.1 = k)) = true
      · rw [if_pos (by simp [List.any_cons, ha2])]
        rw [if_pos ha2] at ih
        simp only [List.map_cons, if_neg he]
        rw [mapGet_cons_ne he]
        exact ih
      · have hnone : ¬(e :: es).any (fun e => decide (e.1 = k)) = true := by
          simp only [List.any_cons, Bool.or_eq_true, decide_eq_true_eq]
          rintro (hx | hx)
          · exact he hx
          · exact ha2 hx
        rw [if_neg hnone]
        rw [if_neg ha2] at ih
        show mapGet (e :: (es ++ [(k, v)])) k = some v
        rw [mapGet_cons_ne he]
        exact ih

theorem cleanup_nextRef (c : CacheState) : (cleanup c).nextRef = c.nextRef := by
  unfold cleanup
  split <;> rfl

theorem cleanup_maxSize (c : CacheState) : (cleanup c).maxSize = c.maxSize := by
  unfold cleanup
  split <;> rfl

theorem cleanup_ttl (c : CacheState) : (cleanup c).ttl = c.ttl := by
  unfold cleanup
  split <;> rfl

theorem cleanup_of_le (c : CacheState) (h : c.entries.length ≤ c.maxSize) :
    cleanup c = c := by
  unfold cleanup
  rw [if_pos h]

theorem mem_foldl_mapDelete {e : String × CachedDocument} :
    ∀ (ks : List (String × CachedDocument)) (m : List (String × CachedDocument)),
      e ∈ ks.foldl (fun acc x => mapDelete acc x.1) m → e ∈ m := by
  intro ks
  induction ks with
  | nil => intro m h; exact h
  | cons x xs ih =>
    intro m h
    exact mem_mapDelete (ih (mapDelete m x.1) h)

theorem cleanup_entries_subset (c : CacheState) :
    ∀ e ∈ (cleanup c).entries, e ∈ c.entries := by
  unfold cleanup
  split
  · intro e he; exact he
  · intro e he
    exact mem_foldl_mapDelete _ _ he

theorem parseAndStore_fst (c : CacheState) (uri : String) (version : Nat)
    (text : String) (now : Nat) :
    (parseAndStore c uri version text now).1 = c.nextRef := rfl

theorem parseAndStore_nextRef (c : CacheState) (uri : String) (version : Nat)
    (text : String) (now : Nat) :
    (parseAndStore c uri version text now).2.nextRef = c.nextRef + 1 := by
  unfold parseAndStore
  rw [cleanup_nextRef]

theorem getTree_ref_lt (c : CacheState) (uri : String) (version : Nat)
    (text : String) (now : Nat) (hW : RefsBelow c) :
    (getTree c uri version text now).1 <
      (getTree c uri version text now).2.nextRef ∧
    c.nextRef ≤ (getTree c uri version text now).2.nextRef := by
  unfold getTree
  cases hg : mapGet c.entries uri with
  | none =>
    simp only [parseAndStore_fst, parseAndStore_nextRef]
    omega
  | some cached =>
    by_cases hv : cached.version = version ∧ cached.text = text
    · by_cases hts : now - cached.timestamp < c.ttl
      · simp only [if_pos hv, if_pos hts]
        exact ⟨hW _ (mapGet_mem hg), Nat.le_refl _⟩
      · simp only [if_pos hv, if_neg hts, parseAndStore_fst,
          parseAndStore_nextRef]
        omega
    · simp only [if_neg hv, parseAndStore_fst, parseAndStore_nextRef]
      omega

theorem key_not_mem_mapDelete (m : List (String × CachedDocument))
    (k : String) : k ∉ (mapDelete m k).map Prod.fst := by
  intro hk
  obtain ⟨e, he, hek⟩ := List.mem_map.mp hk
  have := List.of_mem_filter he
  simp only [decide_not, Bool.not_eq_true'] at this
  rw [hek] at this
  simp at this

theorem length_mapDelete_of_mem {m : List (String × CachedDocument)}
    {k : String} {v : CachedDocument} (hN : (m.map Prod.fst).Nodup)
    (hmem : (k, v) ∈ m) : (mapDelete m k).length + 1 = m.length := by
  induction m with
  | nil => cases hmem
  | cons e es ih =>
    rw [List.map_cons, List.nodup_cons] at hN
    rcases List.mem_cons.mp hmem with he | hmem2
    · have hek : e.1 = k := by rw [← he]
      have hes : mapDelete es k = es := by
        unfold mapDelete
        rw [List.filter_eq_self]
        intro x hx
        simp only [decide_not, Bool.not_eq_true', decide_eq_false_iff_not]
        intro hxk
        refine hN.1 ?_
        rw [hek, ← hxk]
        exact List.mem_map_of_mem Prod.fst hx
      unfold mapDelete at hes ⊢
      rw [List.filter_cons_of_neg (by simp [hek]), hes]
      simp
    · have hek : ¬e.1 = k := by
        intro hx
        exact hN.1 (hx ▸ (List.mem_map_of_mem Prod.fst hmem2))
      unfold mapDelete at ih ⊢
      rw [List.filter_cons_of_pos (by simpa using hek)]
      simp only [List.length_cons]
      rw [ih hN.2 hmem2]

theorem foldl_mapDelete_eq_filter :
    ∀ (ks m : List (String × CachedDocument)),
      ks.foldl (fun m e => mapDelete m e.1) m =
        m.filter (fun e => decide (e.1 ∉ ks.map Prod.fst)) := by
  intro ks
  induction ks with
  | nil =>
    intro m
    simp [List.filter_eq_self]
  | cons x xs ih =>
    intro m
    show xs.foldl (fun m e => mapDelete m e.1) (mapDelete m x.1) = _
    rw [ih (mapDelete m x.1)]
    unfold mapDelete
    rw [List.filter_filter]
    apply List.filter_congr
    intro e he
    by_cases h1 : e.1 = x.1 <;> by_cases h2 : e.1 ∈ xs.map Prod.fst <;>
      simp [h1, h2]

theorem foldl_mapDelete_take :
    ∀ (m : List (String × CachedDocument)) (x : Nat),
      (m.map Prod.fst).Nodup →
      (m.take x).foldl (fun m e => mapDelete m e.1) m = m.drop x := by
  intro m
  induction m with
  | nil => intro x hN; simp
  | cons e es ih =>
    intro x hN
    rw [List.map_cons, List.nodup_cons] at hN
    cases x with
    | zero => simp
    | succ x2 =>
      rw [List.take_succ_cons, List.foldl_cons]
      have hdel : mapDelete (e :: es) e.1 = es := by
        unfold mapDelete
        rw [List.filter_cons_of_neg (by simp)]
        rw [List.filter_eq_self.mpr]
        intro y hy
        simp only [decide_not, Bool.not_eq_true', decide_eq_false_iff_not]
        intro hyk
        exact hN.1 (hyk ▸ List.mem_map_of_mem Prod.fst hy)
      rw [hdel, List.drop_succ_cons]
      exact ih x2 hN.2

/-- Entries of two lists with pairwise-distinct keys that share a key are
equal. -/
theorem eq_of_same_key {s : List (String × CachedDocument)}
    (hN : (s.map Prod.fst).Nodup) {a b : String × CachedDocument}
    (ha : a ∈ s) (hb : b ∈ s) (hk : a.1 = b.1) : a = b := by
  by_contra hne
  have hp : s.Pairwise (fun a b => a.1 ≠ b.1) := by
    rw [List.Nodup, List.pairwise_map] at hN
    exact hN
  have hsym : Symmetric (fun (a b : String × CachedDocument) => a.1 ≠ b.1) := by
    intro x y h hxy
    exact h hxy.symm
  exact (hp.forall hsym ha hb hne) hk

/-- Full characterisation of `cleanup` when the bound is exceeded: the count
comes back to exactly `maxSize`, only existing entries are retained, and
every removed entry is at least as old as every retained one. -/
theorem cleanup_spec (c : CacheState) (hN : (c.entries.map Prod.fst).Nodup)
    (hGt : c.maxSize < c.entries.length) :
    (cleanup c).entries.length = c.maxSize ∧
    (∀ e ∈ (cleanup c).entries, e ∈ c.entries) ∧
    (∀ e ∈ c.entries, e ∉ (cleanup c).entries →
      ∀ e2 ∈ (cleanup c).entries, e.2.timestamp ≤ e2.2.timestamp) := by
  have hx : ¬c.entries.length ≤ c.maxSize := by omega
  have hentries : (cleanup c).entries =
      c.entries.filter (fun e =>
        decide (e.1 ∉
          (((c.entries.mergeSort byTimestamp).take
            (c.entries.length - c.maxSize)).map Prod.fst))) := by
    unfold cleanup
    rw [if_neg hx]
    exact foldl_mapDelete_eq_filter _ _
  have hperm : List.Perm (c.entries.mergeSort byTimestamp) c.entries :=
    List.mergeSort_perm c.entries _
  have hsorted : (c.entries.mergeSort byTimestamp).Pairwise
      (fun a b => byTimestamp a b = true) :=
    List.sorted_mergeSort
      (fun a b cc hab hbc => by
        simp only [byTimestamp, decide_eq_true_eq] at hab hbc ⊢; omega)
      (fun a b => by
        simp only [byTimestamp, Bool.or_eq_true, decide_eq_true_eq]; omega)
      c.entries
  have hNs : ((c.entries.mergeSort byTimestamp).map Prod.fst).Nodup :=
    ((hperm.map Prod.fst).nodup_iff).mpr hN
  generalize hs : c.entries.mergeSort byTimestamp = s at hentries hperm hsorted hNs
  generalize hxd : c.entries.length - c.maxSize = x at hentries
  have hsplit : s.take x ++ s.drop x = s := List.take_append_drop x s
  have hkeys : (s.take x).map Prod.fst ++ (s.drop x).map Prod.fst =
      s.map Prod.fst := by
    rw [← List.map_append, hsplit]
  have hdisj : ∀ a, a ∈ (s.take x).map Prod.fst →
      a ∈ (s.drop x).map Prod.fst → False := by
    rw [← hkeys] at hNs
    exact fun a h1 h2 => (List.nodup_append.mp hNs).2.2 h1 h2
  have hfilter_take : (s.take x).filter (fun e =>
      decide (e.1 ∉ ((s.take x).map Prod.fst))) = [] := by
    rw [List.filter_eq_nil_iff]
    intro e he
    simp only [decide_not, Bool.not_eq_true', decide_eq_false_iff_not,
      Decidable.not_not]
    exact List.mem_map_of_mem Prod.fst he
  have hfilter_drop : (s.drop x).filter (fun e =>
      decide (e.1 ∉ ((s.take x).map Prod.fst))) = s.drop x := by
    rw [List.filter_eq_self]
    intro e he
    simp only [decide_not, Bool.not_eq_true', decide_eq_false_iff_not]
    intro hmem
    exact hdisj e.1 hmem (List.mem_map_of_mem Prod.fst he)
  have hfa : (s.take x ++ s.drop x).filter
        (fun e => decide (e.1 ∉ ((s.take x).map Prod.fst))) =
      (s.take x).filter (fun e => decide (e.1 ∉ ((s.take x).map Prod.fst))) ++
        (s.drop x).filter (fun e => decide (e.1 ∉ ((s.take x).map Prod.fst))) :=
    List.filter_append _ _
  rw [hsplit] at hfa
  have hfs : s.filter (fun e => decide (e.1 ∉ ((s.take x).map Prod.fst))) =
      s.drop x := by
    rw [hfa, hfilter_take, hfilter_drop]
    simp
  have hRperm : List.Perm (cleanup c).entries (s.drop x) := by
    rw [hentries, ← hfs]
    exact (hperm.symm).filter _
  have hslen : s.length = c.entries.length := hperm.length_eq
  refine ⟨?_, cleanup_entries_subset c, ?_⟩
  · rw [hRperm.length_eq, List.length_drop, hslen]
    omega
  · intro e he hnot e2 he2
    have hps : e ∈ s := (hperm.mem_iff).mpr he
    have hkey : e.1 ∈ (s.take x).map Prod.fst := by
      by_contra hk
      apply hnot
      rw [hentries]
      exact List.mem_filter.mpr ⟨he, by simpa using hk⟩
    obtain ⟨e3, he3, he3k⟩ := List.mem_map.mp hkey
    have he3s : e3 ∈ s := List.mem_of_mem_take he3
    have hee3 : e = e3 := eq_of_same_key hNs hps he3s (by rw [he3k])
    have he2d : e2 ∈ s.drop x := (hRperm.mem_iff).mp he2
    have hsorted2 : (s.take x ++ s.drop x).Pairwise
        (fun a b => byTimestamp a b = true) := by
      rw [hsplit]
      exact hsorted
    have hcross := (List.pairwise_append.mp hsorted2).2.2
    have := hcross e3 he3 e2 he2d
    simp only [byTimestamp, decide_eq_true_eq] at this
    rw [hee3]
    exact this

theorem cleanup_sorted (c : CacheState) (hN : (c.entries.map Prod.fst).Nodup)
    (hsort : c.entries.Pairwise (fun a b => a.2.timestamp ≤ b.2.timestamp)) :
    (cleanup c).entries = c.entries.drop (c.entries.length - c.maxSize) := by
  by_cases h : c.entries.length ≤ c.maxSize
  · rw [cleanup_of_le c h]
    have hz : c.entries.length - c.maxSize = 0 := by omega
    rw [hz, List.drop_zero]
  · unfold cleanup
    rw [if_neg h]
    have hms : c.entries.mergeSort byTimestamp = c.entries :=
      List.mergeSort_of_sorted
        (hsort.imp (fun hab => by simpa [byTimestamp] using hab))
    show ((c.entries.mergeSort byTimestamp).take
          (c.entries.length - c.maxSize)).foldl
        (fun m e => mapDelete m e.1) c.entries =
      c.entries.drop (c.entries.length - c.maxSize)
    rw [hms]
    exact foldl_mapDelete_take c.entries _ hN

/-- One fresh insert: `getTree` on an unseen uri appends the new entry and
evicts from the front when over the bound. -/
theorem getTree_fresh_step (c : CacheState) (u : String) (v : Nat)
    (t : String) (now : Nat) (hufresh : u ∉ c.entries.map Prod.fst)
    (hN : ((c.entries ++ [(u, (⟨v, t, c.nextRef, now⟩ : CachedDocument))]).map
      Prod.fst).Nodup)
    (hsort : (c.entries ++ [(u, (⟨v, t, c.nextRef, now⟩ : CachedDocument))]).Pairwise
      (fun a b => a.2.timestamp ≤ b.2.timestamp)) :
    (getTree c u v t now).2.entries =
      (c.entries ++ [(u, (⟨v, t, c.nextRef, now⟩ : CachedDocument))]).drop
        (c.entries.length + 1 - c.maxSize) ∧
    (getTree c u v t now).2.maxSize = c.maxSize := by
  have hmiss : mapGet c.entries u = none := mapGet_eq_none_of_not_mem hufresh
  have hgt : getTree c u v t now = parseAndStore c u v t now := by
    unfold getTree
    rw [hmiss]
  rw [hgt]
  unfold parseAndStore
  rw [mapSet_of_not_mem _ hufresh]
  constructor
  · rw [cleanup_sorted _ hN hsort]
    simp [List.length_append]
  · rw [cleanup_maxSize]

theorem insertAll_spec :
    ∀ (inputs : List (String × Nat × String × Nat)) (c : CacheState),
      ((c.entries.map Prod.fst) ++ inputs.map (fun i => i.1)).Nodup →
      ((c.entries.map (fun e => e.2.timestamp)) ++
        inputs.map (fun i => i.2.2.2)).Pairwise (· < ·) →
      c.entries.length ≤ c.maxSize →
      (insertAll c inputs).entries.map (fun e => (e.1, e.2.timestamp)) =
        ((c.entries.map (fun e => (e.1, e.2.timestamp))) ++
          inputs.map (fun i => (i.1, i.2.2.2))).drop
          (c.entries.length + inputs.length - c.maxSize) ∧
      (insertAll c inputs).maxSize = c.maxSize := by
  intro inputs
  induction inputs with
  | nil =>
    intro c hK hT hL
    refine ⟨?_, rfl⟩
    show c.entries.map (fun e => (e.1, e.2.timestamp)) = _
    simp only [List.map_nil, List.append_nil, List.length_nil]
    have hz : c.entries.length + 0 - c.maxSize = 0 := by omega
    rw [hz, List.drop_zero]
  | cons i rest ih =>
    obtain ⟨u, v, t, now⟩ := i
    intro c hK hT hL
    simp only [List.map_cons] at hK hT
    have hufresh : u ∉ c.entries.map Prod.fst := by
      intro hu
      exact (List.nodup_append.mp hK).2.2 hu (List.mem_cons_self u _)
    have hsub1 : List.Sublist (c.entries.map Prod.fst ++ [u])
        (c.entries.map Prod.fst ++ u :: rest.map (fun i => i.1)) :=
      List.Sublist.append_left ((List.nil_sublist _).cons₂ u) _
    have hNE : ((c.entries ++
        [(u, (⟨v, t, c.nextRef, now⟩ : CachedDocument))]).map Prod.fst).Nodup := by
      rw [List.map_append]
      simp only [List.map_cons, List.map_nil]
      exact List.Nodup.sublist hsub1 hK
    have hsub2 : List.Sublist (c.entries.map (fun e => e.2.timestamp) ++ [now])
        (c.entries.map (fun e => e.2.timestamp) ++
          now :: rest.map (fun i => i.2.2.2)) :=
      List.Sublist.append_left ((List.nil_sublist _).cons₂ now) _
    have hsortE : (c.entries ++
        [(u, (⟨v, t, c.nextRef, now⟩ : CachedDocument))]).Pairwise
        (fun a b => a.2.timestamp ≤ b.2.timestamp) := by
      apply List.pairwise_map.mp
      rw [List.map_append]
      simp only [List.map_cons, List.map_nil]
      refine List.Pairwise.imp (fun hab => Nat.le_of_lt hab) ?_
      exact List.Pairwise.sublist hsub2 hT
    obtain ⟨hc2e, hc2m⟩ := getTree_fresh_step c u v t now hufresh hNE hsortE
    have hc2len : (getTree c u v t now).2.entries.length =
        c.entries.length + 1 - (c.entries.length + 1 - c.maxSize) := by
      rw [hc2e, List.length_drop, List.length_append]
      simp
    have hK2 : ((getTree c u v t now).2.entries.map Prod.fst ++
        rest.map (fun i => i.1)).Nodup := by
      rw [hc2e, List.map_drop, List.map_append]
      simp only [List.map_cons, List.map_nil]
      have hK3 : ((c.entries.map Prod.fst ++ [u]) ++
          rest.map (fun i => i.1)).Nodup := by
        rw [← List.append_cons]
        exact hK
      exact List.Nodup.sublist
        (List.Sublist.append_right (List.drop_sublist _ _) _) hK3
    have hT2 : ((getTree c u v t now).2.entries.map
        (fun e => e.2.timestamp) ++ rest.map (fun i => i.2.2.2)).Pairwise
        (· < ·) := by
      rw [hc2e, List.map_drop, List.map_append]
      simp only [List.map_cons, List.map_nil]
      have hT3 : ((c.entries.map (fun e => e.2.timestamp) ++ [now]) ++
          rest.map (fun i => i.2.2.2)).Pairwise (· < ·) := by
        rw [← List.append_cons]
        exact hT
      exact List.Pairwise.sublist
        (List.Sublist.append_right (List.drop_sublist _ _) _) hT3
    have hL2 : (getTree c u v t now).2.entries.length ≤
        (getTree c u v t now).2.maxSize := by
      rw [hc2len, hc2m]
      omega
    obtain ⟨ihmap, ihms⟩ := ih (getTree c u v t now).2 hK2 hT2 hL2
    constructor
    · show (insertAll (getTree c u v t now).2 rest).entries.map _ = _
      rw [ihmap, hc2e, hc2m, List.map_drop, List.map_append]
      simp only [List.map_cons, List.map_nil]
      have hdle : c.entries.length + 1 - c.maxSize ≤
          ((c.entries.map (fun e => (e.1, e.2.timestamp))) ++
            [(u, now)]).length := by
        simp [List.length_append]
      rw [← List.drop_append_of_le_length hdle, List.drop_drop,
        ← List.append_cons]
      congr 1
      simp only [List.length_drop, List.length_append, List.length_cons,
        List.length_nil]
      omega
    · show (insertAll (getTree c u v t now).2 rest).maxSize = _
      rw [ihms, hc2m]

/-- C6: after an insert pushes the entry count over `maxSize`, the oldest
entries by last-write timestamp are removed until exactly `maxSize` remain;
consequently inserting `maxSize + k` distinct documents (at increasing
times) leaves exactly the `maxSize` most recently written entries; and
lowering `maxSize` at runtime triggers the same eviction immediately. -/
theorem c6_eviction_policy :
    (∀ c : CacheState, (c.entries.map Prod.fst).Nodup →
      c.maxSize < c.entries.length →
      (cleanup c).entries.length = c.maxSize ∧
      (∀ e ∈ (cleanup c).entries, e ∈ c.entries) ∧
      (∀ e ∈ c.entries, e ∉ (cleanup c).entries →
        ∀ e2 ∈ (cleanup c).entries, e.2.timestamp ≤ e2.2.timestamp))
    ∧ (∀ (c : CacheState) (inputs : List (String × Nat × String × Nat))
        (k : Nat), c.entries = [] → 1 ≤ k → inputs.length = c.maxSize + k →
        (inputs.map (fun i => i.1)).Nodup →
        inputs.Pairwise (fun a b => a.2.2.2 < b.2.2.2) →
        (insertAll c inputs).entries.map (fun e => (e.1, e.2.timestamp)) =
          (inputs.map (fun i => (i.1, i.2.2.2))).drop k ∧
        (insertAll c inputs).entries.length = c.maxSize)
    ∧ (∀ (c : CacheState) (m : Nat), (c.entries.map Prod.fst).Nodup →
        m < c.entries.length → (setMaxSize c m).entries.length = m) := by
  refine ⟨fun c hN hGt => cleanup_spec c hN hGt, ?_, ?_⟩
  · intro c inputs k hES hk hlen hKi hTi
    obtain ⟨hmap, hms⟩ := insertAll_spec inputs c
      (by rw [hES]; simpa using hKi)
      (by
        rw [hES]
        simp only [List.map_nil, List.nil_append]
        exact List.pairwise_map.mpr hTi)
      (by rw [hES]; simp)
    have hfst : (insertAll c inputs).entries.map
        (fun e => (e.1, e.2.timestamp)) =
        (inputs.map (fun i => (i.1, i.2.2.2))).drop k := by
      rw [hmap, hES]
      simp only [List.map_nil, List.nil_append, List.length_nil, Nat.zero_add]
      congr 1
      omega
    refine ⟨hfst, ?_⟩
    have hlen2 := congrArg List.length hfst
    simp only [List.length_map, List.length_drop] at hlen2
    rw [hlen] at hlen2
    omega
  · intro c m hN hlt
    exact (cleanup_spec { c with maxSize := m } hN hlt).1

theorem c6_eviction_policy_witness :
    (insertAll ⟨[], 2, 300000, 0⟩
        [("a", 1, "x", 10), ("b", 1, "y", 20), ("c", 1, "z", 30)]).entries.map
      (fun e => (e.1, e.2.timestamp)) = [("b", 20), ("c", 30)] ∧
    (insertAll ⟨[], 2, 300000, 0⟩
        [("a", 1, "x", 10), ("b", 1, "y", 20),
          ("c", 1, "z", 30)]).entries.length = 2 := by
  have h := c6_eviction_policy.2.1 ⟨[], 2, 300000, 0⟩
    [("a", 1, "x", 10), ("b", 1, "y", 20), ("c", 1, "z", 30)] 1
    rfl (by decide) (by decide) (by decide) (by decide)
  exact ⟨h.1.trans (by decide), h.2⟩

/-- C7: staleness is only checked at lookup.  A lookup that finds a matching
entry whose age has reached the TTL deletes it, behaves as a miss (the text
is parsed afresh, consuming a new tree reference), and stores a replacement
entry carrying the current timestamp; the returned tree is not the expired
one. -/
theorem c7_lazy_ttl_expiry (c : CacheState) (uri : String) (version : Nat)
    (text : String) (now : Nat) (cached : CachedDocument)
    (hN : (c.entries.map Prod.fst).Nodup)
    (hL : c.entries.length ≤ c.maxSize)
    (hW : RefsBelow c)
    (hg : mapGet c.entries uri = some cached)
    (hv : cached.version = version) (ht : cached.text = text)
    (hexp : c.ttl ≤ now - cached.timestamp) :
    (getTree c uri version text now).1 = c.nextRef ∧
    (getTree c uri version text now).2.nextRef = c.nextRef + 1 ∧
    mapGet (getTree c uri version text now).2.entries uri =
      some ⟨version, text, c.nextRef, now⟩ ∧
    (getTree c uri version text now).1 ≠ cached.tree := by
  have hts : ¬(now - cached.timestamp < c.ttl) := by omega
  have hpath : getTree c uri version text now =
      parseAndStore { c with entries := mapDelete c.entries uri }
        uri version text now := by
    unfold getTree
    rw [hg]
    simp only [if_pos (And.intro hv ht), if_neg hts]
  have hkeynot := key_not_mem_mapDelete c.entries uri
  have hset := mapSet_of_not_mem (m := mapDelete c.entries uri) (k := uri)
    (⟨version, text, c.nextRef, now⟩ : CachedDocument) hkeynot
  have hlen := length_mapDelete_of_mem hN (mapGet_mem hg)
  have hstore : parseAndStore { c with entries := mapDelete c.entries uri }
      uri version text now =
      (c.nextRef,
        { entries := mapSet (mapDelete c.entries uri) uri
            ⟨version, text, c.nextRef, now⟩,
          maxSize := c.maxSize, ttl := c.ttl, nextRef := c.nextRef + 1 }) := by
    unfold parseAndStore
    rw [cleanup_of_le]
    rw [hset]
    simp only [List.length_append, List.length_cons, List.length_nil]
    omega
  rw [hpath, hstore]
  refine ⟨rfl, rfl, mapGet_mapSet_self _ _ _, ?_⟩
  have h2 : cached.tree < c.nextRef := by simpa using hW _ (mapGet_mem hg)
  simp only
  omega

theorem c7_lazy_ttl_expiry_witness :
    (getTree ⟨[("file:///a.edge", ⟨1, "hi", 0, 100⟩)], 100, 50, 1⟩
        "file:///a.edge" 1 "hi" 200).1 = 1 ∧
    (getTree ⟨[("file:///a.edge", ⟨1, "hi", 0, 100⟩)], 100, 50, 1⟩
        "file:///a.edge" 1 "hi" 200).2.nextRef = 2 ∧
    mapGet (getTree ⟨[("file:///a.edge", ⟨1, "hi", 0, 100⟩)], 100, 50, 1⟩
        "file:///a.edge" 1 "hi" 200).2.entries "file:///a.edge" =
      some ⟨1, "hi", 1, 200⟩ ∧
    (getTree ⟨[("file:///a.edge", ⟨1, "hi", 0, 100⟩)], 100, 50, 1⟩
        "file:///a.edge" 1 "hi" 200).1 ≠ 0 :=
  c7_lazy_ttl_expiry ⟨[("file:///a.edge", ⟨1, "hi", 0, 100⟩)], 100, 50, 1⟩
    "file:///a.edge" 1 "hi" 200 ⟨1, "hi", 0, 100⟩
    (by decide) (by decide) (by unfold RefsBelow; decide) (by decide)
    (by decide) (by decide) (by decide)

/-- C5: a lookup that finds an entry with matching version and text whose age
is under the TTL returns the stored tree reference with the cache state
unchanged (no reparse); and invalidating the document between two calls with
identical arguments forces the second call to parse afresh and return a tree
reference different from the first call's. -/
theorem c5_hit_reuse_and_invalidate (c : CacheState) (uri : String)
    (version : Nat) (text : String) :
    (∀ cached now, mapGet c.entries uri = some cached →
        cached.version = version → cached.text = text →
        now - cached.timestamp < c.ttl →
        getTree c uri version text now = (cached.tree, c))
    ∧ (RefsBelow c → ∀ now1 now2,
        (getTree (invalidate (getTree c uri version text now1).2 uri)
            uri version text now2).1 =
          (invalidate (getTree c uri version text now1).2 uri).nextRef ∧
        (getTree (invalidate (getTree c uri version text now1).2 uri)
            uri version text now2).1 ≠ (getTree c uri version text now1).1) := by
  constructor
  · intro cached now hg hv ht hts
    unfold getTree
    rw [hg]
    simp only [if_pos (And.intro hv ht), if_pos hts]
  · intro hW now1 now2
    have hlt := getTree_ref_lt c uri version text now1 hW
    set c1 := (getTree c uri version text now1).2 with hc1
    have hmiss : mapGet (invalidate c1 uri).entries uri = none :=
      mapGet_mapDelete_self c1.entries uri
    have hgo : getTree (invalidate c1 uri) uri version text now2 =
        parseAndStore (invalidate c1 uri) uri version text now2 := by
      unfold getTree
      rw [hmiss]
    have hinv : (invalidate c1 uri).nextRef = c1.nextRef := rfl
    constructor
    · rw [hgo, parseAndStore_fst]
    · rw [hgo, parseAndStore_fst, hinv]
      omega

theorem c5_hit_reuse_and_invalidate_witness :
    getTree ⟨[("file:///a.edge", ⟨1, "hello", 0, 100⟩)], 100, 300000, 1⟩
        "file:///a.edge" 1 "hello" 200 =
      (0, ⟨[("file:///a.edge", ⟨1, "hello", 0, 100⟩)], 100, 300000, 1⟩) ∧
    (getTree (invalidate
          (getTree ⟨[("file:///a.edge", ⟨1, "hello", 0, 100⟩)], 100, 300000, 1⟩
            "file:///a.edge" 1 "hello" 200).2 "file:///a.edge")
        "file:///a.edge" 1 "hello" 300).1 ≠
      (getTree ⟨[("file:///a.edge", ⟨1, "hello", 0, 100⟩)], 100, 300000, 1⟩
        "file:///a.edge" 1 "hello" 200).1 :=
  ⟨(c5_hit_reuse_and_invalidate
        ⟨[("file:///a.edge", ⟨1, "hello", 0, 100⟩)], 100, 300000, 1⟩
        "file:///a.edge" 1 "hello").1 ⟨1, "hello", 0, 100⟩ 200
      (by decide) (by decide) (by decide) (by decide),
    ((c5_hit_reuse_and_invalidate
          ⟨[("file:///a.edge", ⟨1, "hello", 0, 100⟩)], 100, 300000, 1⟩
          "file:///a.edge" 1 "hello").2
        (by unfold RefsBelow; decide) 200 300).2⟩

/-! Lemmas for C4: correctness of the position lookup on well-nested trees. -/

theorem pointLe_iff (a b : Point) :
    pointLe a b = true ↔
      (a.row < b.row ∨ (a.row = b.row ∧ a.column ≤ b.column)) := by
  simp [pointLe]

theorem pointLe_false_iff (a b : Point) :
    pointLe a b = false ↔
      ¬(a.row < b.row ∨ (a.row = b.row ∧ a.column ≤ b.column)) := by
  rw [← pointLe_iff]
  cases pointLe a b <;> simp

theorem containsB_iff (n : PNode) (p : Point) :
    containsB n p = true ↔
      (pointLe n.startPoint p = true ∧ pointLe n.endPoint p = false) := by
  simp [containsB, Bool.and_eq_true, Bool.not_eq_true']

theorem spanInside_self (n : PNode) : spanInside n n = true := by
  unfold spanInside
  rw [Bool.and_eq_true]
  constructor <;> (rw [pointLe_iff]; omega)

theorem spanInside_trans {a b c : PNode} (h1 : spanInside a b = true)
    (h2 : spanInside b c = true) : spanInside a c = true := by
  unfold spanInside at h1 h2 ⊢
  rw [Bool.and_eq_true] at h1 h2 ⊢
  obtain ⟨h11, h12⟩ := h1
  obtain ⟨h21, h22⟩ := h2
  rw [pointLe_iff] at h11 h12 h21 h22 ⊢
  constructor <;> [skip; rw [pointLe_iff]] <;> omega

theorem contains_of_inside {c n : PNode} {p : Point}
    (hin : spanInside c n = true) (hc : containsB c p = true) :
    containsB n p = true := by
  rw [containsB_iff] at hc ⊢
  unfold spanInside at hin
  rw [Bool.and_eq_true] at hin
  obtain ⟨hi1, hi2⟩ := hin
  obtain ⟨hc1, hc2⟩ := hc
  rw [pointLe_iff] at hi1 hi2 hc1
  rw [pointLe_false_iff] at hc2
  constructor
  · rw [pointLe_iff]; omega
  · rw [pointLe_false_iff]; omega

theorem contains_disjoint {a b : PNode} {p : Point}
    (hd : disjointSpans a b = true) (ha : containsB a p = true)
    (hb : containsB b p = true) : False := by
  rw [containsB_iff] at ha hb
  unfold disjointSpans at hd
  rw [Bool.or_eq_true] at hd
  obtain ⟨ha1, ha2⟩ := ha
  obtain ⟨hb1, hb2⟩ := hb
  rw [pointLe_iff] at ha1 hb1
  rw [pointLe_false_iff] at ha2 hb2
  rcases hd with h | h <;> rw [pointLe_iff] at h <;> omega

theorem disjointSpans_symm {a b : PNode} (h : disjointSpans a b = true) :
    disjointSpans b a = true := by
  unfold disjointSpans at h ⊢
  rw [Bool.or_eq_true] at h ⊢
  exact h.symm

theorem wellNested_parts {s e : Point} {cs : List PNode}
    (h : wellNested (.mk s e cs) = true) :
    (∀ c ∈ cs, spanInside c (.mk s e cs) = true) ∧
    childrenDisjoint cs = true ∧ childrenWellNested cs = true := by
  unfold wellNested at h
  rw [Bool.and_eq_true, Bool.and_eq_true] at h
  refine ⟨?_, h.1.2, h.2⟩
  intro c hc
  have := h.1.1
  rw [List.all_eq_true] at this
  exact this c hc

theorem childrenWellNested_mem {cs : List PNode}
    (h : childrenWellNested cs = true) {c : PNode} (hc : c ∈ cs) :
    wellNested c = true := by
  induction cs with
  | nil => cases hc
  | cons d ds ih =>
    unfold childrenWellNested at h
    rw [Bool.and_eq_true] at h
    rcases List.mem_cons.mp hc with rfl | hc2
    · exact h.1
    · exact ih h.2 hc2

theorem childrenDisjoint_rel {cs : List PNode}
    (h : childrenDisjoint cs = true) :
    cs.Pairwise (fun a b => disjointSpans a b = true) := by
  induction cs with
  | nil => constructor
  | cons c ds ih =>
    unfold childrenDisjoint at h
    rw [Bool.and_eq_true, List.all_eq_true] at h
    exact List.Pairwise.cons (fun d hd => h.1 d hd) (ih h.2)

theorem mem_allNodesList {d : PNode} :
    ∀ {cs : List PNode}, d ∈ allNodesList cs ↔ ∃ c ∈ cs, d ∈ c.allNodes := by
  intro cs
  induction cs with
  | nil => simp [allNodesList]
  | cons c cs ih =>
    show d ∈ c.allNodes ++ allNodesList cs ↔ _
    simp [List.mem_append, ih]

theorem self_mem_allNodes (n : PNode) : n ∈ n.allNodes := by
  cases n with
  | mk s e cs =>
    rw [PNode.allNodes]
    exact List.mem_cons_self _ _

mutual
theorem spanInside_allNodes : ∀ (n : PNode), wellNested n = true →
    ∀ d ∈ n.allNodes, spanInside d n = true
  | .mk s e cs => fun hwf d hd => by
    rw [PNode.allNodes] at hd
    rcases List.mem_cons.mp hd with rfl | hd2
    · exact spanInside_self _
    · obtain ⟨c, hc, hdc⟩ := mem_allNodesList.mp hd2
      have hparts := wellNested_parts hwf
      exact spanInside_trans
        (spanInside_allNodesList cs hparts.2.2 c hc d hdc) (hparts.1 c hc)

theorem spanInside_allNodesList : ∀ (cs : List PNode),
    childrenWellNested cs = true →
    ∀ c ∈ cs, ∀ d ∈ c.allNodes, spanInside d c = true
  | [] => fun _ c hc => absurd hc (List.not_mem_nil c)
  | c :: cs => fun h c2 hc2 d hd => by
    have h2 : wellNested c = true ∧ childrenWellNested cs = true := by
      unfold childrenWellNested at h
      rw [Bool.and_eq_true] at h
      exact h
    rcases List.mem_cons.mp hc2 with rfl | hc3
    · exact spanInside_allNodes c2 h2.1 d hd
    · exact spanInside_allNodesList cs h2.2 c2 hc3 d hd
end

mutual
theorem dfp_correct : ∀ (n : PNode), wellNested n = true → ∀ (p : Point),
    containsB n p = true →
    ∃ m, descendantForPosition n p = some m ∧ containsB m p = true ∧
      m ∈ n.allNodes ∧
      ∀ d ∈ n.allNodes, containsB d p = true → m ∈ d.allNodes
  | .mk s e cs => fun hwf p hc => by
    have hparts := wellNested_parts hwf
    have hd : descendantForPosition (.mk s e cs) p =
        match descendInChildren cs p with
        | some m => some m
        | none => some (.mk s e cs) := by
      rw [descendantForPosition, if_pos hc]
    have hdisjp := childrenDisjoint_rel hparts.2.1
    cases hdic : descendInChildren cs p with
    | none =>
      have hnone := (dic_correct cs hparts.2.2 p).1 hdic
      refine ⟨.mk s e cs, by rw [hd, hdic], hc, self_mem_allNodes _, ?_⟩
      intro d hdmem hdc
      rw [PNode.allNodes] at hdmem
      rcases List.mem_cons.mp hdmem with rfl | hd2
      · exact self_mem_allNodes _
      · obtain ⟨c, hcmem, hdc2⟩ := mem_allNodesList.mp hd2
        have hcc : containsB c p = true := contains_of_inside
          (spanInside_allNodesList cs hparts.2.2 c hcmem d hdc2) hdc
        rw [hnone c hcmem] at hcc
        cases hcc
    | some m =>
      obtain ⟨c, hcmem, hccont, hmc, hmmem, hmdeep⟩ :=
        (dic_correct cs hparts.2.2 p).2 m hdic
      have hmroot : m ∈ PNode.allNodes (.mk s e cs) := by
        rw [PNode.allNodes]
        exact List.mem_cons_of_mem _ (mem_allNodesList.mpr ⟨c, hcmem, hmmem⟩)
      refine ⟨m, by rw [hd, hdic], hmc, hmroot, ?_⟩
      intro d hdmem hdc
      rw [PNode.allNodes] at hdmem
      rcases List.mem_cons.mp hdmem with rfl | hd2
      · exact hmroot
      · obtain ⟨c2, hc2mem, hdc2⟩ := mem_allNodesList.mp hd2
        have hc2c : containsB c2 p = true := contains_of_inside
          (spanInside_allNodesList cs hparts.2.2 c2 hc2mem d hdc2) hdc
        by_cases hcc2 : c2 = c
        · subst hcc2
          exact hmdeep d hdc2 hdc
        · exfalso
          have hsym : Symmetric
              (fun (a b : PNode) => disjointSpans a b = true) := by
            intro x y hxy
            exact disjointSpans_symm hxy
          exact contains_disjoint (hdisjp.forall hsym hc2mem hcmem hcc2)
            hc2c hccont

theorem dic_correct : ∀ (cs : List PNode), childrenWellNested cs = true →
    ∀ (p : Point),
    (descendInChildren cs p = none → ∀ c ∈ cs, containsB c p = false) ∧
    (∀ m, descendInChildren cs p = some m →
      ∃ c ∈ cs, containsB c p = true ∧ containsB m p = true ∧
        m ∈ c.allNodes ∧
        ∀ d ∈ c.allNodes, containsB d p = true → m ∈ d.allNodes)
  | [] => fun _ p => by
    constructor
    · intro _ c hc
      exact absurd hc (List.not_mem_nil c)
    · intro m h
      rw [descendInChildren] at h
      cases h
  | c :: cs => fun h p => by
    have h2 : wellNested c = true ∧ childrenWellNested cs = true := by
      unfold childrenWellNested at h
      rw [Bool.and_eq_true] at h
      exact h
    constructor
    · intro hnone c2 hc2
      rw [descendInChildren] at hnone
      by_cases hcc : containsB c p = true
      · rw [if_pos hcc] at hnone
        obtain ⟨m, hmeq, -⟩ := dfp_correct c h2.1 p hcc
        rw [hmeq] at hnone
        cases hnone
      · rw [if_neg hcc] at hnone
        rcases List.mem_cons.mp hc2 with rfl | hc3
        · cases hx : containsB c2 p
          · rfl
          · exact absurd hx hcc
        · exact (dic_correct cs h2.2 p).1 hnone c2 hc3
    · intro m hm
      rw [descendInChildren] at hm
      by_cases hcc : containsB c p = true
      · rw [if_pos hcc] at hm
        obtain ⟨m', hmeq, hprops⟩ := dfp_correct c h2.1 p hcc
        rw [hmeq] at hm
        injection hm with hm
        subst hm
        exact ⟨c, List.mem_cons_self c cs, hcc, hprops⟩
      · rw [if_neg hcc] at hm
        obtain ⟨c2, hc2mem, hrest⟩ := (dic_correct cs h2.2 p).2 m hm
        exact ⟨c2, List.mem_cons_of_mem c hc2mem, hrest⟩
end

theorem dfp_none_iff (n : PNode) (p : Point) :
    descendantForPosition n p = none ↔ containsB n p = false := by
  cases n with
  | mk s e cs =>
    rw [descendantForPosition]
    cases hb : containsB (.mk s e cs) p
    · simp
    · cases hx : descendInChildren cs p <;> simp [hx]

/-- C4: on a well-nested tree, `getNodeAtPosition` returns `null` exactly
when the position is outside the root's span (the document bounds), and
otherwise returns a node containing the position that is the most specific
such node: it lies in the subtree of every node whose span contains the
position. -/
theorem c4_node_at_position (root : PNode) (line character : Nat)
    (hwf : wellNested root = true) :
    (getNodeAtPosition root line character = none ↔
      containsB root ⟨line, character⟩ = false)
    ∧ ∀ m, getNodeAtPosition root line character = some m →
        containsB m ⟨line, character⟩ = true ∧ m ∈ root.allNodes ∧
        ∀ d ∈ root.allNodes, containsB d ⟨line, character⟩ = true →
          m ∈ d.allNodes := by
  constructor
  · exact dfp_none_iff root ⟨line, character⟩
  · intro m hm
    unfold getNodeAtPosition at hm
    have hcb : containsB root ⟨line, character⟩ = true := by
      cases hx : containsB root ⟨line, character⟩
      · rw [(dfp_none_iff root ⟨line, character⟩).mpr hx] at hm
        cases hm
      · rfl
    obtain ⟨m', hmeq, hprops⟩ := dfp_correct root hwf ⟨line, character⟩ hcb
    rw [hmeq] at hm
    injection hm with hm
    subst hm
    exact hprops

theorem c4_node_at_position_witness :
    containsB (PNode.mk ⟨0, 1⟩ ⟨0, 3⟩ []) ⟨0, 2⟩ = true ∧
    PNode.mk ⟨0, 1⟩ ⟨0, 3⟩ [] ∈
      (PNode.mk ⟨0, 0⟩ ⟨2, 0⟩
        [PNode.mk ⟨0, 0⟩ ⟨0, 5⟩ [PNode.mk ⟨0, 1⟩ ⟨0, 3⟩ []]]).allNodes ∧
    ∀ d ∈ (PNode.mk ⟨0, 0⟩ ⟨2, 0⟩
        [PNode.mk ⟨0, 0⟩ ⟨0, 5⟩ [PNode.mk ⟨0, 1⟩ ⟨0, 3⟩ []]]).allNodes,
      containsB d ⟨0, 2⟩ = true →
        PNode.mk ⟨0, 1⟩ ⟨0, 3⟩ [] ∈ d.allNodes :=
  (c4_node_at_position
      (PNode.mk ⟨0, 0⟩ ⟨2, 0⟩
        [PNode.mk ⟨0, 0⟩ ⟨0, 5⟩ [PNode.mk ⟨0, 1⟩ ⟨0, 3⟩ []]])
      0 2 (by decide)).2
    (PNode.mk ⟨0, 1⟩ ⟨0, 3⟩ []) rfl

/-- C8: when the parse call throws, the analyze path catches the failure and
publishes exactly one document-wide Error diagnostic synthesized from it;
when the document parses into a tree the analyze path returns the
validator's diagnostics (everything resolved locally, nothing thrown — the
function is total on the `ok` case). -/
theorem c8_parse_failure_handling (posAt : Nat → Position) :
    (∀ msg, validateEdgeDocument posAt (Except.error msg) =
        [⟨Severity.error, ⟨0, 0⟩, ⟨0, jsNumberMaxValue⟩,
          "Parse error: " ++ msg, "edge"⟩] ∧
      (validateEdgeDocument posAt (Except.error msg)).length = 1)
    ∧ (∀ root, validateEdgeDocument posAt (Except.ok root) =
        (validate root).map (toPub posAt)) :=
  ⟨fun _ => ⟨rfl, rfl⟩, fun _ => rfl⟩

/-! Lemmas for C9: the textual scan detects a cursor strictly inside a
matched marker pair. -/

/-- Once the scan is past the opener (flag set), no closer pair is met
before the cursor, so the flag survives to the cursor. -/
theorem interpScan_stays_true (text : List Char) (offset p q : Nat)
    (hq : ∀ r, p < r → r < q →
      ¬(text[r]? = some '}' ∧ text[r + 1]? = some '}'))
    (ho2 : offset ≤ q) :
    ∀ fuel i, offset - i ≤ fuel → p < i →
      interpScan text offset i true = true := by
  intro fuel
  induction fuel with
  | zero =>
    intro i hf hp
    rw [interpScan, if_neg (by omega)]
  | succ f ihf =>
    intro i hf hp
    rw [interpScan]
    by_cases hio : i < offset
    · rw [if_pos hio]
      by_cases hb : i + 1 < text.length
      · rw [if_pos hb]
        by_cases hc1 : text[i]? = some '{' ∧ text[i + 1]? = some '{'
        · rw [if_pos hc1]
          exact ihf (i + 2) (by omega) (by omega)
        · rw [if_neg hc1]
          by_cases hc2 : text[i]? = some '}' ∧ text[i + 1]? = some '}'
          · exact absurd hc2 (hq i hp (by omega))
          · rw [if_neg hc2]
            exact ihf (i + 1) (by omega) (by omega)
      · rw [if_neg hb]
        exact ihf (i + 1) (by omega) (by omega)
    · rw [if_neg hio]

/-- Up to the opener the scan cannot consume a closer past it, so whatever
the current flag, the opener at `p` flips it to true and it survives. -/
theorem interpScan_reaches_true (text : List Char) (offset p q : Nat)
    (h1 : text[p]? = some '{') (h2 : text[p + 1]? = some '{')
    (hq : ∀ r, p < r → r < q →
      ¬(text[r]? = some '}' ∧ text[r + 1]? = some '}'))
    (ho1 : p + 2 ≤ offset) (ho2 : offset ≤ q) :
    ∀ fuel i b, offset - i ≤ fuel → i ≤ p →
      interpScan text offset i b = true := by
  have hplen : p + 1 < text.length := by
    by_contra hx
    rw [List.getElem?_eq_none (by omega)] at h2
    cases h2
  intro fuel
  induction fuel with
  | zero =>
    intro i b hf hip
    exfalso
    omega
  | succ f ihf =>
    intro i b hf hip
    rw [interpScan]
    have hio : i < offset := by omega
    rw [if_pos hio]
    have hb : i + 1 < text.length := by omega
    rw [if_pos hb]
    by_cases hc1 : text[i]? = some '{' ∧ text[i + 1]? = some '{'
    · rw [if_pos hc1]
      by_cases hip2 : i + 2 ≤ p
      · exact ihf (i + 2) true (by omega) hip2
      · exact interpScan_stays_true text offset p q hq ho2 offset (i + 2)
          (by omega) (by omega)
    · rw [if_neg hc1]
      have hip3 : i < p := by
        rcases Nat.lt_or_ge i p with h | h
        · exact h
        · have hip : i = p := by omega
          exact absurd (hip ▸ And.intro h1 h2) hc1
      by_cases hc2 : text[i]? = some '}' ∧ text[i + 1]? = some '}'
      · rw [if_pos hc2]
        have hip4 : i + 2 ≤ p := by
          by_contra hx
          have hi1 : i + 1 = p := by omega
          rw [hi1, h1] at hc2
          exact absurd hc2.2 (by simp)
        exact ihf (i + 2) false (by omega) (by omega)
      · rw [if_neg hc2]
        exact ihf (i + 1) b (by omega) (by omega)

theorem isInsideInterpolationTree_of_mustache (chain : List Node)
    (h : ∃ n ∈ chain, n.type = "mustache") :
    isInsideInterpolationTree chain = true := by
  induction chain with
  | nil =>
    obtain ⟨n, hn, -⟩ := h
    cases hn
  | cons n rest ih =>
    obtain ⟨m, hm, hmt⟩ := h
    unfold isInsideInterpolationTree
    rcases List.mem_cons.mp hm with rfl | hm2
    · rw [if_pos hmt]
    · by_cases hx : n.type = "mustache"
      · rw [if_pos hx]
      · rw [if_neg hx]
        exact ih ⟨m, hm2, hmt⟩

/-- C9: for a cursor strictly inside a matched interpolation pair — an
opener at `p`, its nearest closer at `q`, cursor offset between them — the
textual fallback classifier says Interpolation from the raw text alone, and
the tree-based classifier agrees whenever the grammar covers the position
with a `mustache` node (as it does for valid interpolations). -/
theorem c9_interpolation_agreement (text : String) (chain : List Node)
    (offset p q : Nat)
    (h1 : text.data[p]? = some '{') (h2 : text.data[p + 1]? = some '{')
    (h3 : text.data[q]? = some '}') (h4 : text.data[q + 1]? = some '}')
    (hq : ∀ r, p < r → r < q →
      ¬(text.data[r]? = some '}' ∧ text.data[r + 1]? = some '}'))
    (ho1 : p + 2 ≤ offset) (ho2 : offset ≤ q)
    (hm : ∃ n ∈ chain, n.type = "mustache") :
    isInsideInterpolationFallback text offset = true ∧
    isInsideInterpolationTree chain = true := by
  constructor
  · exact interpScan_reaches_true text.data offset p q h1 h2 hq ho1 ho2
      offset 0 false (by omega) (by omega)
  · exact isInsideInterpolationTree_of_mustache chain hm

theorem c9_interpolation_agreement_witness :
    isInsideInterpolationFallback
        ⟨['a', '{', '{', ' ', 'x', ' ', '}', '}', 'b']⟩ 5 = true ∧
    isInsideInterpolationTree
        [Node.mk "identifier" "x" 4 5 false [],
          Node.mk "mustache" "" 1 8 false []] = true :=
  c9_interpolation_agreement
    ⟨['a', '{', '{', ' ', 'x', ' ', '}', '}', 'b']⟩
    [Node.mk "identifier" "x" 4 5 false [],
      Node.mk "mustache" "" 1 8 false []]
    5 1 6 (by decide) (by decide) (by decide) (by decide)
    (by
      intro r hr1 hr2
      interval_cases r <;> decide)
    (by decide) (by decide)
    ⟨Node.mk "mustache" "" 1 8 false [], by simp, rfl⟩

theorem c10_no_string_child_skips_checks_witness :
    extractStringFromNode (Node.mk "component_directive" "@!component(card)"
        0 17 false []) = none ∧
    validateComponentDirective (Node.mk "component_directive" "@!component(card)"
        0 17 false []) = [] ∧
    validateSlotDirective (Node.mk "component_directive" "@!component(card)"
        0 17 false []) = [] ∧
    validateSectionDirective (Node.mk "component_directive" "@!component(card)"
        0 17 false []) = [] ∧
    validateBlockDirective (Node.mk "component_directive" "@!component(card)"
        0 17 false []) = [] ∧
    validateInclude (Node.mk "component_directive" "@!component(card)"
        0 17 false []) = [] :=
  c10_no_string_child_skips_checks
    (Node.mk "component_directive" "@!component(card)" 0 17 false [])
    (by simp [Node.children])

end EdgeLS
